import Mathlib

/-!
# Verification of the wine-quality analysis pipeline

Shallow embedding of `src/winequalitycode.py`: an in-memory table model
(`Table`), the loading, cleaning, clustering, regression and correlation
operations of the script, and theorems checking the specification's claims
against them.

Conventions of the embedding:
* a pandas `DataFrame` is a `Table`: a list of column names and a list of
  rows, each row a list of cells;
* a cell is either a number (modelled exactly as a rational, standing for
  the script's floating-point values), a string, or a missing value
  (pandas `NaN` on read, here `Cell.null`);
* plotting calls are pure side effects with no influence on any claim and
  are omitted; the value-level behaviour of every statistics call is
  modelled faithfully.
-/

/-- A cell of the data table: a numeric value, a string value, or a
missing value (`NaN` in pandas). -/
inductive Cell where
  | num (q : ℚ)
  | str (s : String)
  | null
deriving DecidableEq, Repr

/-- An in-memory data table: column names plus rows of cells.
Models a pandas `DataFrame` (row order is positional). -/
structure Table where
  cols : List String
  rows : List (List Cell)
deriving DecidableEq, Repr

/-- A row "contains a missing value": some cell of it is `Cell.null`.
This is the row predicate that pandas `dropna()` removes by. -/
def hasNull (r : List Cell) : Bool :=
  decide (Cell.null ∈ r)

/-- Models `data.dropna()` (src line 70): drop every row containing a
missing value.  Returns a new table; the argument is untouched. -/
def dropna (t : Table) : Table :=
  { cols := t.cols, rows := t.rows.filter (fun r => !(hasNull r)) }

/-- First-occurrence deduplication: keep the first copy of each value,
drop all later copies.  This is the row semantics of pandas
`drop_duplicates()` (keep defaults to the first occurrence). -/
def dedupFirst {α : Type} [DecidableEq α] : List α → List α
  | [] => []
  | r :: rs => r :: dedupFirst (rs.filter (fun x => x ≠ r))
termination_by l => l.length
decreasing_by
  simp only [List.length_cons]
  exact Nat.lt_succ_of_le (List.length_filter_le _ _)

/-- Models `data.drop_duplicates()` (src line 71): drop exact full-row
duplicates, keeping the first instance of each. -/
def drop_duplicates (t : Table) : Table :=
  { cols := t.cols, rows := dedupFirst t.rows }

/-- Models `preprocess_data` (src lines 66-72): drop rows with missing
values, then drop exact duplicate rows. -/
def preprocess_data (t : Table) : Table :=
  drop_duplicates (dropna t)

theorem mem_dedupFirst {α : Type} [DecidableEq α] (a : α) (l : List α) :
    a ∈ dedupFirst l ↔ a ∈ l := by
  induction l using dedupFirst.induct with
  | case1 => simp [dedupFirst]
  | case2 r rs ih =>
    by_cases hra : a = r
    · subst hra
      simp [dedupFirst]
    · simp only [dedupFirst, List.mem_cons, ih, List.mem_filter]
      constructor
      · rintro (h | ⟨h, _⟩)
        · exact absurd h hra
        · exact Or.inr h
      · rintro (h | h)
        · exact absurd h hra
        · exact Or.inr ⟨h, by simpa using hra⟩

theorem nodup_dedupFirst {α : Type} [DecidableEq α] (l : List α) :
    (dedupFirst l).Nodup := by
  induction l using dedupFirst.induct with
  | case1 => simp [dedupFirst]
  | case2 r rs ih =>
    rw [dedupFirst, List.nodup_cons]
    refine ⟨fun hmem => ?_, ih⟩
    rw [mem_dedupFirst, List.mem_filter] at hmem
    simpa using hmem.2

theorem dedupFirst_eq_self_of_nodup {α : Type} [DecidableEq α] (l : List α)
    (h : l.Nodup) : dedupFirst l = l := by
  induction l using dedupFirst.induct with
  | case1 => simp [dedupFirst]
  | case2 r rs ih =>
    rcases List.nodup_cons.mp h with ⟨hr, hrs⟩
    have hfil : rs.filter (fun x => x ≠ r) = rs :=
      List.filter_eq_self.mpr (fun a ha => by
        simp only [decide_eq_true_eq]
        exact fun hc => hr (hc ▸ ha))
    rw [hfil] at ih
    rw [dedupFirst, hfil, ih hrs]

theorem length_dedupFirst_le {α : Type} [DecidableEq α] (l : List α) :
    (dedupFirst l).length ≤ l.length := by
  induction l using dedupFirst.induct with
  | case1 => simp [dedupFirst]
  | case2 r rs ih =>
    rw [dedupFirst, List.length_cons, List.length_cons]
    exact Nat.succ_le_succ (le_trans ih (List.length_filter_le _ _))

theorem toFinset_dedupFirst {α : Type} [DecidableEq α] (l : List α) :
    (dedupFirst l).toFinset = l.toFinset := by
  ext a
  simp [List.mem_toFinset, mem_dedupFirst]

/-- **C2** (cleaning is idempotent).  For every table, applying
`preprocess_data` twice yields the same table as applying it once. -/
theorem preprocess_data_idempotent (t : Table) :
    preprocess_data (preprocess_data t) = preprocess_data t := by
  have hall : ∀ r ∈ (preprocess_data t).rows, !(hasNull r) := by
    intro r hr
    simp only [preprocess_data, drop_duplicates, dropna] at hr
    rw [mem_dedupFirst, List.mem_filter] at hr
    exact hr.2
  show drop_duplicates (dropna (preprocess_data t)) = preprocess_data t
  have h1 : dropna (preprocess_data t) = preprocess_data t := by
    simp only [dropna]
    rw [List.filter_eq_self.mpr hall]
  rw [h1]
  show ({ cols := (preprocess_data t).cols,
          rows := dedupFirst (preprocess_data t).rows } : Table) = preprocess_data t
  rw [dedupFirst_eq_self_of_nodup _ (by
    show (dedupFirst (dropna t).rows).Nodup
    exact nodup_dedupFirst _)]

/-- **C3** (cleaning shrinks, keeps schema).  For every table, cleaning
returns at most as many rows as the input and exactly the same columns
in the same order. -/
theorem preprocess_data_length_le_and_cols (t : Table) :
    (preprocess_data t).rows.length ≤ t.rows.length ∧
      (preprocess_data t).cols = t.cols := by
  constructor
  · exact le_trans (length_dedupFirst_le _) (List.length_filter_le _ _)
  · rfl

/-! ## Object-level (heap) model of the cleaning call (C9) -/

/-- A Python heap: DataFrame objects indexed by address (list position). -/
structure PyHeap where
  objs : List Table
deriving DecidableEq, Repr

/-- Read the DataFrame object at address `a` (empty table if dangling). -/
def readObj (h : PyHeap) (a : Nat) : Table :=
  h.objs.getD a { cols := [], rows := [] }

/-- Allocate a fresh DataFrame object; returns the new heap and the fresh
address.  Existing addresses are untouched. -/
def alloc (h : PyHeap) (t : Table) : PyHeap × Nat :=
  ({ objs := h.objs ++ [t] }, h.objs.length)

/-- Heap-level model of the call `preprocess_data(df)` (src lines 66-72),
where `arg` is the address of the caller's DataFrame.  `data.dropna()`
(line 70) and `data.drop_duplicates()` (line 71) each allocate a fresh
DataFrame; the local name `data` is merely rebound, and the function
returns the address of the final DataFrame. -/
def preprocess_data_call (h : PyHeap) (arg : Nat) : PyHeap × Nat :=
  let s1 := alloc h (dropna (readObj h arg))
  let s2 := alloc s1.1 (drop_duplicates (readObj s1.1 s1.2))
  s2

theorem readObj_alloc_lt (h : PyHeap) (t : Table) (a : Nat)
    (ha : a < h.objs.length) : readObj (alloc h t).1 a = readObj h a := by
  simp only [readObj, alloc]
  exact List.getD_append _ _ _ _ ha

theorem readObj_alloc_new (h : PyHeap) (t : Table) :
    readObj (alloc h t).1 (alloc h t).2 = t := by
  simp only [readObj, alloc]
  rw [List.getD_append_right _ _ _ _ (le_refl _)]
  simp

/-- **C9** (cleaning does not mutate its argument).  For every heap and
every valid address passed to `preprocess_data`, the caller's DataFrame
object is unchanged after the call, and the returned address holds the
newly derived cleaned table. -/
theorem preprocess_data_call_frame (h : PyHeap) (arg : Nat)
    (ha : arg < h.objs.length) :
    readObj (preprocess_data_call h arg).1 arg = readObj h arg ∧
      readObj (preprocess_data_call h arg).1 (preprocess_data_call h arg).2
        = preprocess_data (readObj h arg) := by
  constructor
  · show readObj (alloc (alloc h _).1 _).1 arg = readObj h arg
    rw [readObj_alloc_lt _ _ _ (by simp [alloc]; omega), readObj_alloc_lt _ _ _ ha]
  · show readObj (alloc (alloc h _).1 _).1 (alloc (alloc h _).1 _).2 = _
    rw [readObj_alloc_new, readObj_alloc_new]
    rfl

/-- A one-object heap used to witness the frame theorem. -/
def heapW : PyHeap :=
  { objs := [{ cols := ["a"], rows := [[Cell.num 1], [Cell.num 1], [Cell.null]] }] }

theorem preprocess_data_call_frame_witness :
    0 < heapW.objs.length ∧
      (readObj (preprocess_data_call heapW 0).1 0 = readObj heapW 0 ∧
        readObj (preprocess_data_call heapW 0).1 (preprocess_data_call heapW 0).2
          = preprocess_data (readObj heapW 0)) :=
  ⟨by decide, preprocess_data_call_frame heapW 0 (by decide)⟩

/-! ## Loading and initial exploration (C1) -/

/-- Models the column assignment `df[c] = v` for a column name not yet
present: pandas appends the new column at the end (src lines 29-30). -/
def addConstCol (t : Table) (c : String) (v : Cell) : Table :=
  { cols := t.cols ++ [c], rows := t.rows.map (fun r => r ++ [v]) }

/-- Models `pd.concat([t1, t2], axis=0)` for two tables whose column sets
already match (src line 33): the rows of `t1` followed by the rows of
`t2`. -/
def concatRows (t1 t2 : Table) : Table :=
  { cols := t1.cols, rows := t1.rows ++ t2.rows }

/-- The cells of column position `i` (out-of-range reads yield `null`). -/
def columnAt (t : Table) (i : Nat) : List Cell :=
  t.rows.map (fun r => r.getD i Cell.null)

/-- Models `data.isnull().sum()` (src line 42): per-column count of
missing values. -/
def isnull_sum (t : Table) : List Nat :=
  (List.range t.cols.length).map
    (fun i => (columnAt t i).countP (fun c => c = Cell.null))

/-- Models `data.duplicated().sum()` (src line 43): the number of rows
that are exact copies of an earlier row. -/
def duplicated_sum (t : Table) : Nat :=
  t.rows.length - (dedupFirst t.rows).length

/-- Models the value-level part of `load_and_explore_data` (src lines
20-64): tag the red and white tables with their wine type, concatenate
them, and report per-column missing-value counts and the duplicate-row
count of the combined table.  The box plot and count plot are pure side
effects and are omitted. -/
def load_and_explore_data (red white : Table) : Table × List Nat × Nat :=
  let data := concatRows (addConstCol red "wine_type" (Cell.str "red"))
                         (addConstCol white "wine_type" (Cell.str "white"))
  (data, isnull_sum data, duplicated_sum data)

/-- The number of distinct values appearing in column `c` of `t`. -/
def uniqueCount (t : Table) (c : String) : Nat :=
  (columnAt t (t.cols.indexOf c)).dedup.length

theorem indexOf_append_singleton {c : String} {l : List String}
    (h : c ∉ l) : (l ++ [c]).indexOf c = l.length := by
  induction l with
  | nil => simp [List.indexOf_cons]
  | cons a l ih =>
    have hac : (a == c) = false := by
      simp only [beq_eq_false_iff_ne, ne_eq]
      exact fun e => h (by simp [e])
    simp only [List.cons_append, List.indexOf_cons, hac, cond_false, List.length_cons]
    rw [ih (fun hm => h (List.mem_cons_of_mem _ hm))]

/-- **C1** (amended: combined load).  For well-formed inputs — matching
column sets, rectangular rows, no pre-existing `wine_type` column — with
disjoint row sets and **at least one row each**, the combined table has
as many rows as the two inputs together and its `wine_type` column holds
exactly two distinct values. -/
theorem load_and_explore_data_combined (red white : Table)
    (hcols : red.cols = white.cols)
    (hwt : "wine_type" ∉ red.cols)
    (hrectr : ∀ r ∈ red.rows, r.length = red.cols.length)
    (hrectw : ∀ r ∈ white.rows, r.length = white.cols.length)
    (hdisj : ∀ r ∈ red.rows, r ∉ white.rows)
    (hner : red.rows ≠ []) (hnew : white.rows ≠ []) :
    (load_and_explore_data red white).1.rows.length
        = red.rows.length + white.rows.length ∧
      uniqueCount (load_and_explore_data red white).1 "wine_type" = 2 := by
  constructor
  · simp [load_and_explore_data, concatRows, addConstCol]
  · have hidx : ((load_and_explore_data red white).1.cols).indexOf "wine_type"
        = red.cols.length := by
      show ((red.cols ++ ["wine_type"]).indexOf "wine_type") = red.cols.length
      exact indexOf_append_singleton hwt
    have hcol : columnAt (load_and_explore_data red white).1 red.cols.length
        = List.replicate red.rows.length (Cell.str "red")
            ++ List.replicate white.rows.length (Cell.str "white") := by
      simp only [load_and_explore_data, concatRows, addConstCol, columnAt,
        List.map_append, List.map_map]
      congr 1
      · refine List.eq_replicate_iff.mpr ⟨by simp, ?_⟩
        intro b hb
        rcases List.mem_map.mp hb with ⟨r, hr, hbr⟩
        rw [← hbr]
        simp only [Function.comp_apply]
        rw [← hrectr r hr, List.getD_append_right _ _ _ _ (le_refl _),
          Nat.sub_self]
        rfl
      · refine List.eq_replicate_iff.mpr ⟨by simp, ?_⟩
        intro b hb
        rcases List.mem_map.mp hb with ⟨r, hr, hbr⟩
        rw [← hbr]
        simp only [Function.comp_apply]
        have hrl : r.length = red.cols.length := hcols ▸ hrectw r hr
        rw [← hrl, List.getD_append_right _ _ _ _ (le_refl _), Nat.sub_self]
        rfl
    rw [uniqueCount, hidx, hcol, ← List.card_toFinset, List.toFinset_append,
      List.toFinset_replicate_of_ne_zero
        (fun h0 => hner (List.length_eq_zero.mp h0)),
      List.toFinset_replicate_of_ne_zero
        (fun h0 => hnew (List.length_eq_zero.mp h0)),
      ← Finset.insert_eq]
    exact Finset.card_pair (by decide)

/-- An empty but well-formed red input: a header-only CSV. -/
def redEmptyT : Table := { cols := ["quality"], rows := [] }

/-- A one-row white input. -/
def whiteOneT : Table := { cols := ["quality"], rows := [[Cell.num 1]] }

/-- **C1 counterexample.**  The claim as stated fails on a pair of
well-formed inputs with disjoint row sets one of which is empty: the
combined table's `wine_type` column then holds one distinct value, not
two (the row-count part still holds). -/
theorem load_and_explore_data_empty_input :
    (redEmptyT.cols = whiteOneT.cols ∧
      "wine_type" ∉ redEmptyT.cols ∧
      (∀ r ∈ redEmptyT.rows, r.length = redEmptyT.cols.length) ∧
      (∀ r ∈ whiteOneT.rows, r.length = whiteOneT.cols.length) ∧
      (∀ r ∈ redEmptyT.rows, r ∉ whiteOneT.rows)) ∧
      ¬ (uniqueCount (load_and_explore_data redEmptyT whiteOneT).1 "wine_type"
          = 2) := by
  decide

/-- One-row red input used to witness the amended C1. -/
def redW : Table := { cols := ["quality"], rows := [[Cell.num 5]] }

/-- One-row white input (a different row) used to witness the amended C1. -/
def whiteW : Table := { cols := ["quality"], rows := [[Cell.num 6]] }

theorem load_and_explore_data_combined_witness :
    (redW.cols = whiteW.cols ∧ "wine_type" ∉ redW.cols ∧
      (∀ r ∈ redW.rows, r.length = redW.cols.length) ∧
      (∀ r ∈ whiteW.rows, r.length = whiteW.cols.length) ∧
      (∀ r ∈ redW.rows, r ∉ whiteW.rows) ∧
      redW.rows ≠ [] ∧ whiteW.rows ≠ []) ∧
    ((load_and_explore_data redW whiteW).1.rows.length
        = redW.rows.length + whiteW.rows.length ∧
      uniqueCount (load_and_explore_data redW whiteW).1 "wine_type" = 2) :=
  ⟨by decide,
    load_and_explore_data_combined redW whiteW (by decide) (by decide)
      (by decide) (by decide) (by decide) (by decide) (by decide)⟩

/-! ## The 10-row cleaning example (C4) -/

theorem count_filter_le_count {α : Type} [DecidableEq α] (p : α → Bool)
    (l : List α) (a : α) : (l.filter p).count a ≤ l.count a :=
  List.Sublist.count_le (List.filter_sublist _) a

/-- In a list with one value occurring exactly twice and every other
value occurring at most once, the number of distinct values is one less
than the length. -/
theorem card_toFinset_of_single_dup {α : Type} [DecidableEq α]
    (l : List α) (d : α) (hd : l.count d = 2)
    (hother : ∀ a, a ≠ d → l.count a ≤ 1) :
    l.toFinset.card + 1 = l.length := by
  have hdmem : d ∈ l := by
    rw [← List.count_pos_iff, hd]
    omega
  have hdT : d ∈ l.toFinset := List.mem_toFinset.mpr hdmem
  have hsum : ∑ a ∈ l.toFinset, (l : Multiset α).count a = l.length := by
    have := Multiset.toFinset_sum_count_eq (l : Multiset α)
    simpa using this
  have hsplit : ∑ a ∈ l.toFinset, (l : Multiset α).count a
      = l.toFinset.card + ∑ a ∈ l.toFinset, ((l : Multiset α).count a - 1) := by
    rw [Finset.card_eq_sum_ones, ← Finset.sum_add_distrib]
    refine Finset.sum_congr rfl (fun a ha => ?_)
    have hpos : 0 < (l : Multiset α).count a := by
      rw [Multiset.coe_count, List.count_pos_iff]
      exact List.mem_toFinset.mp ha
    omega
  have hone : ∑ a ∈ l.toFinset, ((l : Multiset α).count a - 1) = 1 := by
    rw [Finset.sum_eq_single_of_mem d hdT (fun b _ hbd => by
      have := hother b hbd
      rw [Multiset.coe_count]
      omega)]
    rw [Multiset.coe_count, hd]
  rw [hsplit, hone] at hsum
  omega

/-- A list whose "rows occurring at least twice" sublist has length two
contains exactly one value with count two, all others at most once. -/
theorem exists_unique_dup {α : Type} [DecidableEq α] (l : List α)
    (h2 : (l.filter (fun r => 2 ≤ l.count r)).length = 2) :
    ∃ d, l.count d = 2 ∧ ∀ a, a ≠ d → l.count a ≤ 1 := by
  obtain ⟨d, hdS⟩ : ∃ a, a ∈ l.filter (fun r => 2 ≤ l.count r) :=
    List.length_pos_iff_exists_mem.mp (by omega)
  have hd2 : 2 ≤ l.count d := by
    have := (List.mem_filter.mp hdS).2
    simpa using this
  have hcS : (l.filter (fun r => 2 ≤ l.count r)).count d = l.count d :=
    List.count_filter (by simpa using hd2)
  have hle : l.count d ≤ 2 := by
    have := List.count_le_length d (l.filter (fun r => 2 ≤ l.count r))
    omega
  have hdexact : l.count d = 2 := le_antisymm hle hd2
  have hall : ∀ b ∈ l.filter (fun r => 2 ≤ l.count r), d = b :=
    List.count_eq_length.mp (by omega)
  refine ⟨d, hdexact, fun a had => ?_⟩
  by_contra hc
  push_neg at hc
  have hamem : a ∈ l := by
    rw [← List.count_pos_iff]
    omega
  have : d = a := hall a (List.mem_filter.mpr ⟨hamem, by simpa using hc⟩)
  exact had this.symm

theorem countP_eq_count {α : Type} [DecidableEq α] (l : List α) (a : α) :
    l.countP (fun x => x = a) = l.count a := rfl

theorem count_filter_of_pred {α : Type} [DecidableEq α] {p : α → Bool}
    {a : α} (l : List α) (h : p a = true) :
    (l.filter p).count a = l.count a :=
  List.count_filter h

theorem count_le_len {α : Type} [DecidableEq α] (a : α) (l : List α) :
    l.count a ≤ l.length :=
  List.count_le_length a l

/-- **C4** (the 10-row example).  Every 10-row table with exactly one
fully duplicated row (one value occurring twice) and exactly one row
containing a missing value cleans to exactly 8 rows. -/
theorem preprocess_data_ten_rows (t : Table)
    (h10 : t.rows.length = 10)
    (hdup : (t.rows.filter
        (fun r => 2 ≤ t.rows.countP (fun x => x = r))).length = 2)
    (hnull : (t.rows.filter (fun r => hasNull r)).length = 1) :
    (preprocess_data t).rows.length = 8 := by
  simp only [countP_eq_count] at hdup
  obtain ⟨d, hd2, hother⟩ := exists_unique_dup t.rows hdup
  have hdnonull : hasNull d = false := by
    by_contra hc
    rw [Bool.not_eq_false] at hc
    have h1 := count_filter_of_pred (p := fun r => hasNull r) t.rows hc
    have h2 := count_le_len d (t.rows.filter (fun r => hasNull r))
    omega
  have hlen9 : (t.rows.filter (fun r => !(hasNull r))).length = 9 := by
    have := List.length_eq_length_filter_add (l := t.rows)
      (fun r => hasNull r)
    omega
  have hcount_d := count_filter_of_pred (p := fun r => !(hasNull r))
    (a := d) t.rows (by simp [hdnonull])
  have hcount_o := fun (a : List Cell) (ha : a ≠ d) =>
    le_trans (count_filter_le_count (fun r => !(hasNull r)) t.rows a)
      (hother a ha)
  have hcard : (t.rows.filter (fun r => !(hasNull r))).toFinset.card + 1 = 9 := by
    rw [card_toFinset_of_single_dup _ d (by omega) hcount_o]
    exact hlen9
  show (dedupFirst (dropna t).rows).length = 8
  have hnodup := nodup_dedupFirst (dropna t).rows
  have := List.toFinset_card_of_nodup hnodup
  rw [toFinset_dedupFirst] at this
  simp only [dropna] at this ⊢
  omega

/-- A 10-row table with one duplicated row and one missing-value row,
witnessing C4. -/
def tenRowT : Table :=
  { cols := ["a"],
    rows := [[Cell.num 0], [Cell.num 1], [Cell.num 2], [Cell.num 3],
             [Cell.num 4], [Cell.num 5], [Cell.num 6], [Cell.num 7],
             [Cell.num 0], [Cell.null]] }

theorem preprocess_data_ten_rows_witness :
    (tenRowT.rows.length = 10 ∧
      (tenRowT.rows.filter
        (fun r => 2 ≤ tenRowT.rows.countP (fun x => x = r))).length = 2 ∧
      (tenRowT.rows.filter (fun r => hasNull r)).length = 1) ∧
    (preprocess_data tenRowT).rows.length = 8 :=
  ⟨by decide,
    preprocess_data_ten_rows tenRowT (by decide) (by decide) (by decide)⟩

/-! ## Seeded shuffling and the train/test split (C5) -/

/-- One step of a linear congruential pseudo-random stream.  It models
the deterministic seeded `RandomState` consumed by the seeded sklearn
calls; no claim depends on the exact stream, only on its being a
deterministic function of the seed. -/
def lcg (g : Nat) : Nat := (1103515245 * g + 12345) % 4294967296

/-- Deterministic shuffle driven by the seeded stream: repeatedly pick
the position `g % length`, emit that element, advance the stream, and
recurse on the remainder (a Fisher-Yates draw). -/
def shuffleAux {α : Type} : Nat → List α → List α
  | _, [] => []
  | g, a :: t =>
    (a :: t).get ⟨g % (a :: t).length, Nat.mod_lt _ (Nat.succ_pos _)⟩ ::
      shuffleAux (lcg g) ((a :: t).eraseIdx (g % (a :: t).length))
termination_by _ l => l.length
decreasing_by
  simp only [List.length_eraseIdx, List.length_cons]
  have hlt : g % (t.length + 1) < t.length + 1 := Nat.mod_lt _ (Nat.succ_pos _)
  rw [if_pos hlt]
  omega

theorem cons_get_eraseIdx_perm {α : Type} (l : List α) (i : Nat)
    (h : i < l.length) : (l.get ⟨i, h⟩ :: l.eraseIdx i).Perm l := by
  induction l generalizing i with
  | nil => simp at h
  | cons a t ih =>
    cases i with
    | zero => simp [List.eraseIdx]
    | succ n =>
      have hn : n < t.length := by simpa using h
      show (t.get ⟨n, hn⟩ :: a :: t.eraseIdx n).Perm (a :: t)
      exact (List.Perm.swap a _ _).trans ((ih n hn).cons a)

theorem shuffleAux_perm {α : Type} (g : Nat) (l : List α) :
    (shuffleAux g l).Perm l := by
  generalize hn : l.length = n
  induction n using Nat.strong_induction_on generalizing g l with
  | _ n ih =>
    cases l with
    | nil => rw [shuffleAux]
    | cons a t =>
      rw [shuffleAux]
      have hlt : ((a :: t).eraseIdx (g % (a :: t).length)).length < n := by
        have hpos : 0 < (a :: t).length := Nat.succ_pos _
        rw [List.length_eraseIdx, if_pos (Nat.mod_lt _ hpos)]
        simp only [List.length_cons] at hn ⊢
        omega
      exact ((ih _ hlt (lcg g) _ rfl).cons _).trans
        (cons_get_eraseIdx_perm _ _ _)

/-- Models the sklearn test-subset size for `test_size=0.3`:
`ceil(0.3 * n)` rows of `n`. -/
def testSize (n : Nat) : Nat := (3 * n + 9) / 10

/-- Models `train_test_split(X, y, test_size=0.3, random_state=42)` at
the level of row indices (src line 134): shuffle the indices `0..n-1`
with the seeded stream; the first `testSize n` shuffled indices form the
test subset, the remainder the training subset.  Returns
`(train indices, test indices)`. -/
def train_test_split (seed n : Nat) : List Nat × List Nat :=
  ((shuffleAux seed (List.range n)).drop (testSize n),
    (shuffleAux seed (List.range n)).take (testSize n))

/-- Numeric view of one cell (features are numeric in every use). -/
def cellToQ : Cell → ℚ
  | Cell.num q => q
  | Cell.str _ => 0
  | Cell.null => 0

/-- Models the numeric feature view `data[features]` used by the
clustering and regression stages (src lines 90 and 132): one list of
rationals per table row. -/
def selectCols (t : Table) (cs : List String) : List (List ℚ) :=
  t.rows.map (fun r => cs.map (fun c => cellToQ (r.getD (t.cols.indexOf c) Cell.null)))

/-- Models the target view `data[target]` (src line 133). -/
def selectCol (t : Table) (c : String) : List ℚ :=
  t.rows.map (fun r => cellToQ (r.getD (t.cols.indexOf c) Cell.null))

/-- **C5** (train/test split).  For every table and feature list, the
split performed in the regression stage partitions the row indices of
the feature matrix into disjoint train and test subsets whose sizes sum
to the pre-split row count, the test subset holding 30% of the rows up
to less than one row of rounding. -/
theorem train_test_split_partition (t : Table) (fs : List String) :
    ((train_test_split 42 (selectCols t fs).length).1).Disjoint
        (train_test_split 42 (selectCols t fs).length).2 ∧
      (train_test_split 42 (selectCols t fs).length).1.length
          + (train_test_split 42 (selectCols t fs).length).2.length
        = (selectCols t fs).length ∧
      |10 * ((train_test_split 42 (selectCols t fs).length).2.length : ℤ)
          - 3 * ((selectCols t fs).length : ℤ)| ≤ 10 := by
  set n := (selectCols t fs).length with hn
  have hperm := shuffleAux_perm 42 (List.range n)
  have hlen : (shuffleAux 42 (List.range n)).length = n := by
    rw [hperm.length_eq, List.length_range]
  have hnodup : (shuffleAux 42 (List.range n)).Nodup :=
    hperm.nodup_iff.mpr (List.nodup_range n)
  have hts : testSize n ≤ n := by
    unfold testSize
    omega
  refine ⟨?_, ?_, ?_⟩
  · exact (List.disjoint_take_drop hnodup (le_refl (testSize n))).symm
  · show ((shuffleAux 42 (List.range n)).drop (testSize n)).length
        + ((shuffleAux 42 (List.range n)).take (testSize n)).length = n
    rw [List.length_drop, List.length_take, hlen]
    omega
  · show |10 * (((shuffleAux 42 (List.range n)).take (testSize n)).length : ℤ)
        - 3 * (n : ℤ)| ≤ 10
    rw [List.length_take, hlen, min_eq_left hts, abs_le]
    unfold testSize
    constructor <;> omega

/-! ## Clustering (C7) -/

/-- Squared Euclidean distance between two feature vectors. -/
def sqDist (a b : List ℚ) : ℚ :=
  (List.zipWith (fun x y => (x - y) * (x - y)) a b).sum

/-- Scan the remaining centres, keeping the index of the closest one so
far (the earlier index wins ties, as in k-means label assignment). -/
def nearestFrom (x : List ℚ) : List (List ℚ) → Nat → Nat → ℚ → Nat
  | [], _, best, _ => best
  | c :: cs, i, best, bd =>
    if sqDist x c < bd then nearestFrom x cs (i + 1) i (sqDist x c)
    else nearestFrom x cs (i + 1) best bd

/-- Index of the centre nearest to `x`. -/
def nearestCenter (cs : List (List ℚ)) (x : List ℚ) : Nat :=
  match cs with
  | [] => 0
  | c :: cs2 => nearestFrom x cs2 1 0 (sqDist x c)

/-- Componentwise vector sum. -/
def vecAdd (a b : List ℚ) : List ℚ := List.zipWith (· + ·) a b

/-- Mean of a list of rationals (0 for the empty list, by the division
convention). -/
def listMean (xs : List ℚ) : ℚ := xs.sum / (xs.length : ℚ)

/-- Componentwise mean of a cluster's points (the zero vector for an
empty cluster). -/
def centroid (dim : Nat) (pts : List (List ℚ)) : List ℚ :=
  if pts.length = 0 then List.replicate dim 0
  else (pts.foldl vecAdd (List.replicate dim 0)).map
    (fun s => s / (pts.length : ℚ))

/-- Dimension of the feature matrix (length of its first row). -/
def dimOf (X : List (List ℚ)) : Nat := (X.headD []).length

/-- Recompute the `k` centres as the centroids of the points carrying
each label. -/
def updateCenters (k : Nat) (X : List (List ℚ)) (labels : List Nat) :
    List (List ℚ) :=
  (List.range k).map (fun j =>
    centroid (dimOf X) (((X.zip labels).filter
      (fun p => p.2 = j)).map (fun p => p.1)))

/-- Lloyd iterations: assign each point to its nearest centre, recompute
centres, repeat; the final answer is the last assignment. -/
def lloyd (k : Nat) : Nat → List (List ℚ) → List (List ℚ) → List Nat
  | 0, cs, X => X.map (nearestCenter cs)
  | n + 1, cs, X =>
    lloyd k n (updateCenters k X (X.map (nearestCenter cs))) X

/-- Models `KMeans(n_clusters=k, random_state=rs).fit_predict(X)`:
deterministic seeded initialisation (k row indices drawn from the seeded
stream) followed by Lloyd iterations (the sklearn default
`max_iter=300`).  When `random_state` is `none`, the initialisation
draws from the per-run entropy instead, as an unseeded run would. -/
def kmeans_fit_predict (random_state : Option Nat) (entropy : Nat)
    (k : Nat) (X : List (List ℚ)) : List Nat :=
  let g := match random_state with
    | some s => s
    | none => entropy
  let initIdx := (shuffleAux g (List.range X.length)).take k
  lloyd k 300 (initIdx.map (fun i => X.getD i [])) X

/-- Models the table effect of `perform_clustering` (src lines 86-93):
label the rows by 3-means over the chosen features with
`random_state=42` and append the labels as a new `cluster` column
(`data['cluster'] = kmeans.fit_predict(X)`).  The silhouette score and
the elbow sweep are diagnostics unused by every claim and are omitted.
`entropy` is the per-run entropy an unseeded run would consume; the
source pins `random_state=42`. -/
def perform_clustering (entropy : Nat) (data : Table)
    (features : List String) : Table :=
  let labels := kmeans_fit_predict (some 42) entropy 3 (selectCols data features)
  { cols := data.cols ++ ["cluster"],
    rows := List.zipWith (fun r lab => r ++ [Cell.num (lab : ℚ)])
      data.rows labels }

/-- **C7** (clustering determinism).  With the fixed seed 42 and k=3,
two separate runs (arbitrary per-run entropies `e1`, `e2`) of the
clustering stage assign identical cluster labels to every row: the
entropy never reaches the seeded pseudo-random stream. -/
theorem perform_clustering_deterministic (e1 e2 : Nat) (data : Table)
    (fs : List String) :
    perform_clustering e1 data fs = perform_clustering e2 data fs := rfl

/-! ## Regression (C10) -/

/-- Dot product of two equal-length vectors. -/
def dot (a b : List ℚ) : ℚ := (List.zipWith (· * ·) a b).sum

/-- Determinant of a square list matrix by Laplace expansion along the
first row (used to solve the least-squares normal equations exactly). -/
def detL : List (List ℚ) → ℚ
  | [] => 1
  | r :: rest =>
    ((List.range r.length).map (fun j =>
      (-1 : ℚ) ^ j * r.getD j 0 *
        detL (rest.map (fun row => row.eraseIdx j)))).sum
termination_by m => m.length
decreasing_by
  simp only [List.length_map, List.length_cons]
  omega

/-- Replace column `i` of the square system by the right-hand side. -/
def replaceCol (g : List (List ℚ)) (i : Nat) (b : List ℚ) : List (List ℚ) :=
  List.zipWith (fun row bi => row.set i bi) g b

/-- Solve the linear system `g w = b` by Cramer's rule; the zero vector
when the system is singular (standing in for the minimum-norm `lstsq`
fallback, which no claim exercises). -/
def solveCramer (g : List (List ℚ)) (b : List ℚ) : List ℚ :=
  if detL g = 0 then List.replicate g.length 0
  else (List.range g.length).map (fun i => detL (replaceCol g i b) / detL g)

/-- Fit `LinearRegression()` on the training rows (design matrix with an
intercept column, solved through the normal equations) and return the
mean squared error of its predictions on the test rows (src lines
135-138). -/
def fitPredictMSE (xtr : List (List ℚ)) (ytr : List ℚ)
    (xte : List (List ℚ)) (yte : List ℚ) : ℚ :=
  let xd := xtr.map (fun r => (1 : ℚ) :: r)
  let cols := (List.range (dimOf xd)).map (fun i => xd.map (fun r => r.getD i 0))
  let g := cols.map (fun ci => cols.map (fun cj => dot ci cj))
  let bv := cols.map (fun ci => dot ci ytr)
  let w := solveCramer g bv
  let preds := xte.map (fun r => dot w ((1 : ℚ) :: r))
  listMean (List.zipWith (fun yv pv => (yv - pv) * (yv - pv)) yte preds)

/-- The value computed from the extracted columns `X`, `y` by the
regression stage: seeded 70/30 split of the rows, fit on the training
part, mean squared error on the test part (src lines 134-138). -/
def mseOf (x : List (List ℚ)) (y : List ℚ) : ℚ :=
  let tts := train_test_split 42 x.length
  fitPredictMSE (tts.1.map (fun i => x.getD i []))
    (tts.1.map (fun i => y.getD i 0))
    (tts.2.map (fun i => x.getD i []))
    (tts.2.map (fun i => y.getD i 0))

/-- Models the returned value of `perform_regression` (src lines
128-149): extract `X = data[features]` and `y = data[target]`, split,
fit, and return the MSE.  The regression-line plot is a side effect and
is omitted. -/
def perform_regression (data : Table) (features : List String)
    (target : String) : ℚ :=
  mseOf (selectCols data features) (selectCol data target)

/-- **C10** (MSE depends only on features and target).  Two tables that
agree on the selected feature columns and on the target column — for
example, tables differing only in the derived `cluster` column — give
the same mean squared error in the regression stage. -/
theorem perform_regression_depends_only_on_columns (t1 t2 : Table)
    (fs : List String) (tg : String)
    (hX : selectCols t1 fs = selectCols t2 fs)
    (hy : selectCol t1 tg = selectCol t2 tg) :
    perform_regression t1 fs tg = perform_regression t2 fs tg := by
  unfold perform_regression
  rw [hX, hy]

/-- Two-row table without a cluster column, witnessing C10. -/
def tReg1 : Table :=
  { cols := ["alcohol", "quality"],
    rows := [[Cell.num 1, Cell.num 5], [Cell.num 2, Cell.num 6]] }

/-- The same two rows with an extra derived cluster column. -/
def tReg2 : Table :=
  { cols := ["alcohol", "quality", "cluster"],
    rows := [[Cell.num 1, Cell.num 5, Cell.num 0],
             [Cell.num 2, Cell.num 6, Cell.num 1]] }

theorem perform_regression_depends_only_on_columns_witness :
    (selectCols tReg1 ["alcohol"] = selectCols tReg2 ["alcohol"] ∧
      selectCol tReg1 "quality" = selectCol tReg2 "quality") ∧
    perform_regression tReg1 ["alcohol"] "quality"
      = perform_regression tReg2 ["alcohol"] "quality" :=
  ⟨by decide,
    perform_regression_depends_only_on_columns tReg1 tReg2 ["alcohol"]
      "quality" (by decide) (by decide)⟩

/-! ## The correlation matrix (C6) -/

/-- Deviations of a column from its mean. -/
def demean (xs : List ℚ) : List ℚ := xs.map (fun x => x - listMean xs)

/-- Sum of products of deviations: the unnormalised covariance of two
columns.  (The shared `1/(n-1)` factors of the covariance and the
standard deviations cancel in the correlation quotient.) -/
def sxy (xs ys : List ℚ) : ℚ :=
  (List.zipWith (· * ·) (demean xs) (demean ys)).sum

/-- Pearson correlation of two columns, as `corr()` computes it:
covariance over the product of standard deviations, in exact real
arithmetic.  A zero-variance column gives a zero denominator — pandas
reports `NaN` there, this model the division-by-zero value 0; in either
semantics the entry is not 1. -/
noncomputable def corr (xs ys : List ℚ) : ℝ :=
  ((sxy xs ys : ℚ) : ℝ) /
    (Real.sqrt ((sxy xs xs : ℚ) : ℝ) * Real.sqrt ((sxy ys ys : ℚ) : ℝ))

/-- The correlation matrix over a list of columns (square by type). -/
noncomputable def corrMatrix (cs : List (List ℚ)) :
    Matrix (Fin cs.length) (Fin cs.length) ℝ :=
  Matrix.of (fun i j => corr (cs.get i) (cs.get j))

/-- Whether a cell counts as numeric for
`select_dtypes(include=[np.number])`. -/
def isNumericCell : Cell → Bool
  | Cell.num _ => true
  | _ => false

/-- Models `data.select_dtypes(include=[np.number])` (src line 156): the
all-numeric columns of the table, in table order, as rational columns. -/
def numericColumns (t : Table) : List (List ℚ) :=
  ((List.range t.cols.length).filter
      (fun i => (columnAt t i).all (fun c => isNumericCell c))).map
    (fun i => (columnAt t i).map cellToQ)

/-- Models the matrix computed by `plot_correlation_matrix` (src lines
151-162): the Pearson correlation matrix of the numeric columns. -/
noncomputable def plot_correlation_matrix (t : Table) :
    Matrix (Fin (numericColumns t).length) (Fin (numericColumns t).length) ℝ :=
  corrMatrix (numericColumns t)

theorem zipWith_mul_comm (xs ys : List ℚ) :
    List.zipWith (· * ·) xs ys = List.zipWith (· * ·) ys xs := by
  induction xs generalizing ys with
  | nil => cases ys <;> rfl
  | cons x xs ih =>
    cases ys with
    | nil => rfl
    | cons y ys => simp [List.zipWith, mul_comm, ih]

theorem sxy_comm (xs ys : List ℚ) : sxy xs ys = sxy ys xs := by
  unfold sxy
  rw [zipWith_mul_comm]

theorem sxy_self_nonneg (xs : List ℚ) : 0 ≤ sxy xs xs := by
  unfold sxy
  rw [List.zipWith_same]
  refine List.sum_nonneg (fun x hx => ?_)
  rcases List.mem_map.mp hx with ⟨a, _, rfl⟩
  exact mul_self_nonneg a

theorem sum_zipWith_eq_sum_range (f : ℚ → ℚ → ℚ) (xs ys : List ℚ)
    (h : xs.length = ys.length) :
    (List.zipWith f xs ys).sum
      = ∑ i ∈ Finset.range xs.length, f (xs.getD i 0) (ys.getD i 0) := by
  induction xs generalizing ys with
  | nil => simp
  | cons x xs ih =>
    cases ys with
    | nil => simp at h
    | cons y ys =>
      have h2 : xs.length = ys.length := by simpa using h
      show f x y + (List.zipWith f xs ys).sum = _
      rw [List.length_cons, Finset.sum_range_succ']
      have hstep : ∀ i : Nat,
          f ((x :: xs).getD (i + 1) 0) ((y :: ys).getD (i + 1) 0)
            = f (xs.getD i 0) (ys.getD i 0) := fun i => rfl
      simp only [hstep]
      rw [← ih ys h2]
      show f x y + (List.zipWith f xs ys).sum
          = (List.zipWith f xs ys).sum + f ((x :: xs).getD 0 0) ((y :: ys).getD 0 0)
      rw [add_comm]
      rfl

theorem sxy_sq_le (xs ys : List ℚ) (h : xs.length = ys.length) :
    (sxy xs ys) ^ 2 ≤ (sxy xs xs) * (sxy ys ys) := by
  have hdx : (demean xs).length = xs.length := by simp [demean]
  have hdy : (demean ys).length = ys.length := by simp [demean]
  have hd : (demean xs).length = (demean ys).length := by rw [hdx, hdy, h]
  unfold sxy
  rw [sum_zipWith_eq_sum_range _ _ _ hd, sum_zipWith_eq_sum_range _ _ _ rfl,
    sum_zipWith_eq_sum_range _ _ _ rfl, ← hd]
  have key := Finset.sum_mul_sq_le_sq_mul_sq (Finset.range (demean xs).length)
    (fun i => (demean xs).getD i 0) (fun i => (demean ys).getD i 0)
  calc (∑ i ∈ Finset.range (demean xs).length,
          (demean xs).getD i 0 * (demean ys).getD i 0) ^ 2
      ≤ (∑ i ∈ Finset.range (demean xs).length, ((demean xs).getD i 0) ^ 2)
          * (∑ i ∈ Finset.range (demean xs).length, ((demean ys).getD i 0) ^ 2) :=
        key
    _ = (∑ i ∈ Finset.range (demean xs).length,
            (demean xs).getD i 0 * (demean xs).getD i 0)
          * (∑ i ∈ Finset.range (demean xs).length,
            (demean ys).getD i 0 * (demean ys).getD i 0) := by
        congr 1 <;> exact Finset.sum_congr rfl (fun i _ => sq _)

theorem corr_comm (xs ys : List ℚ) : corr xs ys = corr ys xs := by
  unfold corr
  rw [sxy_comm xs ys, mul_comm]

theorem corr_self_of_var_ne_zero (xs : List ℚ) (hx : sxy xs xs ≠ 0) :
    corr xs xs = 1 := by
  unfold corr
  have h0 : (0 : ℝ) ≤ ((sxy xs xs : ℚ) : ℝ) := by
    exact_mod_cast sxy_self_nonneg xs
  rw [Real.mul_self_sqrt h0]
  exact div_self (by exact_mod_cast hx)

theorem corr_abs_le_one (xs ys : List ℚ) (h : xs.length = ys.length)
    (hx : sxy xs xs ≠ 0) (hy : sxy ys ys ≠ 0) : |corr xs ys| ≤ 1 := by
  have hx0 : (0 : ℚ) < sxy xs xs := lt_of_le_of_ne (sxy_self_nonneg xs) (Ne.symm hx)
  have hy0 : (0 : ℚ) < sxy ys ys := lt_of_le_of_ne (sxy_self_nonneg ys) (Ne.symm hy)
  have hxr : (0 : ℝ) < ((sxy xs xs : ℚ) : ℝ) := by exact_mod_cast hx0
  have hyr : (0 : ℝ) < ((sxy ys ys : ℚ) : ℝ) := by exact_mod_cast hy0
  have hden : (0 : ℝ) < Real.sqrt ((sxy xs xs : ℚ) : ℝ)
      * Real.sqrt ((sxy ys ys : ℚ) : ℝ) :=
    mul_pos (Real.sqrt_pos.mpr hxr) (Real.sqrt_pos.mpr hyr)
  unfold corr
  rw [abs_div, abs_of_pos hden, div_le_one hden]
  have hsq : (((sxy xs ys : ℚ) : ℝ)) ^ 2
      ≤ ((sxy xs xs : ℚ) : ℝ) * ((sxy ys ys : ℚ) : ℝ) := by
    have := sxy_sq_le xs ys h
    exact_mod_cast this
  calc |((sxy xs ys : ℚ) : ℝ)|
      = Real.sqrt ((((sxy xs ys : ℚ) : ℝ)) ^ 2) := (Real.sqrt_sq_eq_abs _).symm
    _ ≤ Real.sqrt (((sxy xs xs : ℚ) : ℝ) * ((sxy ys ys : ℚ) : ℝ)) :=
        Real.sqrt_le_sqrt hsq
    _ = Real.sqrt ((sxy xs xs : ℚ) : ℝ) * Real.sqrt ((sxy ys ys : ℚ) : ℝ) :=
        Real.sqrt_mul (le_of_lt hxr) _

theorem length_mem_numericColumns (t : Table) :
    ∀ c ∈ numericColumns t, c.length = t.rows.length := by
  intro c hc
  rcases List.mem_map.mp hc with ⟨i, _, rfl⟩
  simp [columnAt]

/-- **C6** (amended: correlation matrix).  For every numeric-only table
in which every numeric column has nonzero variance, the correlation
matrix of the exploration stage is square (by construction), symmetric,
has every entry in [-1, 1], and every diagonal entry exactly 1. -/
theorem plot_correlation_matrix_props (t : Table)
    (hnum : ∀ r ∈ t.rows, ∀ x ∈ r, isNumericCell x = true)
    (hvar : ∀ c ∈ numericColumns t, sxy c c ≠ 0) :
    (plot_correlation_matrix t).IsSymm ∧
      (∀ i j, -1 ≤ plot_correlation_matrix t i j ∧
        plot_correlation_matrix t i j ≤ 1) ∧
      (∀ i, plot_correlation_matrix t i i = 1) := by
  refine ⟨?_, ?_, ?_⟩
  · apply Matrix.ext
    intro i j
    show corr ((numericColumns t).get j) ((numericColumns t).get i)
        = corr ((numericColumns t).get i) ((numericColumns t).get j)
    exact corr_comm _ _
  · intro i j
    have habs : |corr ((numericColumns t).get i) ((numericColumns t).get j)| ≤ 1 := by
      apply corr_abs_le_one
      · rw [length_mem_numericColumns t _ (List.get_mem _ _ _),
          length_mem_numericColumns t _ (List.get_mem _ _ _)]
      · exact hvar _ (List.get_mem _ _ _)
      · exact hvar _ (List.get_mem _ _ _)
    have := abs_le.mp habs
    exact ⟨this.1, this.2⟩
  · intro i
    show corr ((numericColumns t).get i) ((numericColumns t).get i) = 1
    exact corr_self_of_var_ne_zero _ (hvar _ (List.get_mem _ _ _))

/-- A numeric-only table whose single column is constant (zero
variance). -/
def tConst : Table := { cols := ["x"], rows := [[Cell.num 1], [Cell.num 1]] }

/-- **C6 counterexample.**  On a numeric-only table with a constant
column, the diagonal entry of the correlation matrix at that column is
not 1 (pandas reports `NaN`; the model's division-by-zero value is 0 —
in both semantics the entry differs from 1), refuting the claim for
arbitrary numeric-only tables. -/
theorem plot_correlation_matrix_const_col :
    (∀ r ∈ tConst.rows, ∀ x ∈ r, isNumericCell x = true) ∧
      plot_correlation_matrix tConst ⟨0, by decide⟩ ⟨0, by decide⟩ ≠ 1 := by
  constructor
  · decide
  · show corr ((numericColumns tConst).get ⟨0, by decide⟩)
        ((numericColumns tConst).get ⟨0, by decide⟩) ≠ 1
    have hc : (numericColumns tConst).get ⟨0, by decide⟩ = [1, 1] := rfl
    rw [hc]
    have hs : sxy [(1 : ℚ), 1] [(1 : ℚ), 1] = 0 := by
      norm_num [sxy, demean, listMean]
    unfold corr
    rw [hs]
    norm_num

/-- A numeric-only two-column table with nonconstant columns,
witnessing the amended C6. -/
def tCorrW : Table :=
  { cols := ["x", "y"],
    rows := [[Cell.num 0, Cell.num 0], [Cell.num 1, Cell.num 2]] }

theorem plot_correlation_matrix_props_witness :
    ((∀ r ∈ tCorrW.rows, ∀ x ∈ r, isNumericCell x = true) ∧
      (∀ c ∈ numericColumns tCorrW, sxy c c ≠ 0)) ∧
    ((plot_correlation_matrix tCorrW).IsSymm ∧
      (∀ i j, -1 ≤ plot_correlation_matrix tCorrW i j ∧
        plot_correlation_matrix tCorrW i j ≤ 1) ∧
      (∀ i, plot_correlation_matrix tCorrW i i = 1)) := by
  have hvar : ∀ c ∈ numericColumns tCorrW, sxy c c ≠ 0 := by
    have h : numericColumns tCorrW = [[0, 1], [0, 2]] := rfl
    rw [h]
    intro c hc
    rcases List.mem_cons.mp hc with hc1 | hc2
    · subst hc1
      norm_num [sxy, demean, listMean]
    · have hc3 : c = [0, 2] := by simpa using hc2
      subst hc3
      norm_num [sxy, demean, listMean]
  exact ⟨⟨by decide, hvar⟩,
    plot_correlation_matrix_props tCorrW (by decide) hvar⟩

/-! ## The main pipeline (C8) -/

/-- The feature list of the main block (src lines 184-185). -/
def featuresMain : List String :=
  ["fixed acidity", "volatile acidity", "citric acid", "residual sugar",
   "chlorides", "free sulfur dioxide", "total sulfur dioxide", "density",
   "pH", "sulphates", "alcohol"]

/-- The regression target of the main block (src line 186). -/
def targetMain : String := "quality"

/-- The observable trace of one run of the main block: the table each
stage consumed and the inputs of each reported statistic. -/
structure MainTrace where
  combined : Table
  missing_values : List Nat
  duplicate_count : Nat
  corr_input : Table
  cleaned : Table
  hist_input : Table
  cluster_input : Table
  clustered : Table
  regress_input : Table
  mse : ℚ

/-- Models the main block (src lines 164-197) in source order:
`load_and_explore_data` (src line 170) computes the missing-value
counts, the duplicate count, the box plot and the count plot on the raw
combined table; `plot_correlation_matrix` (src line 175) also runs on
that raw table; only then does `preprocess_data` (src line 178) run,
and the histogram, clustering and regression consume the cleaned
table. -/
def mainRun (entropy : Nat) (red white : Table) : MainTrace :=
  let l := load_and_explore_data red white
  let data0 := l.1
  let data1 := preprocess_data data0
  let data2 := perform_clustering entropy data1 featuresMain
  { combined := data0
    missing_values := l.2.1
    duplicate_count := l.2.2
    corr_input := data0
    cleaned := data1
    hist_input := data1
    cluster_input := data1
    clustered := data2
    regress_input := data2
    mse := perform_regression data2 featuresMain targetMain }

/-- A red input with a duplicated row. -/
def red8 : Table := { cols := ["quality"], rows := [[Cell.num 1], [Cell.num 1]] }

/-- A white input with a missing value. -/
def white8 : Table := { cols := ["quality"], rows := [[Cell.null]] }

/-- **C8 counterexample.**  On a concrete run, the duplicate count and
missing-value counts reported by the exploration stage, and the table
the correlation matrix is computed from, are those of the raw combined
table, not of the cleaned table: exploration runs before cleaning. -/
theorem mainRun_explores_before_cleaning :
    (mainRun 0 red8 white8).duplicate_count
        ≠ duplicated_sum ((mainRun 0 red8 white8).cleaned) ∧
      (mainRun 0 red8 white8).missing_values
        ≠ isnull_sum ((mainRun 0 red8 white8).cleaned) ∧
      (mainRun 0 red8 white8).corr_input ≠ (mainRun 0 red8 white8).cleaned := by
  refine ⟨?_, ?_, ?_⟩ <;>
    simp [mainRun, load_and_explore_data, concatRows, addConstCol, red8,
      white8, preprocess_data, drop_duplicates, dropna, duplicated_sum,
      isnull_sum, columnAt, hasNull, dedupFirst, List.filter, Table.mk.injEq]
  exact ⟨0, by norm_num, by decide⟩

/-- **C8** (amended: pipeline order).  In every run the exploration
outputs (missing-value counts, duplicate count, box plot, count plot)
and the correlation matrix are computed on the raw combined table,
*before* cleaning; the actual stage order is load+explore → correlation
matrix → clean → histogram → cluster → regress, each later stage
consuming the output table of the stage before it. -/
theorem mainRun_stage_order (entropy : Nat) (red white : Table) :
    (mainRun entropy red white).missing_values
        = isnull_sum ((mainRun entropy red white).combined) ∧
      (mainRun entropy red white).duplicate_count
        = duplicated_sum ((mainRun entropy red white).combined) ∧
      (mainRun entropy red white).corr_input
        = (mainRun entropy red white).combined ∧
      (mainRun entropy red white).cleaned
        = preprocess_data ((mainRun entropy red white).combined) ∧
      (mainRun entropy red white).hist_input
        = (mainRun entropy red white).cleaned ∧
      (mainRun entropy red white).cluster_input
        = (mainRun entropy red white).cleaned ∧
      (mainRun entropy red white).clustered
        = perform_clustering entropy ((mainRun entropy red white).cleaned)
            featuresMain ∧
      (mainRun entropy red white).regress_input
        = (mainRun entropy red white).clustered ∧
      (mainRun entropy red white).mse
        = perform_regression ((mainRun entropy red white).clustered)
            featuresMain targetMain :=
  ⟨rfl, rfl, rfl, rfl, rfl, rfl, rfl, rfl, rfl⟩
